import Mathlib

/-
Verification development for `m3u.py`, a single-class utility that
enumerates audio/playlist files, sanitizes filenames, probes stream URLs,
generates extended-M3U playlists sorted by modification time, and copies
songs to a destination directory.

Strings are modelled as `List Char`; the filesystem is modelled abstractly:
a directory is a list of entries (name, mtime, content) in traversal order,
and a destination directory is an association list from filename to content.
-/

/-- Strings are modelled as lists of characters. -/
abbrev Str := List Char

/-- A filesystem entry: final path component, modification time, content.
Directories passed to `glob` are lists of such entries in traversal order. -/
structure Entry where
  name : Str
  mtime : Nat
  content : Str
  deriving Repr, DecidableEq

instance : Inhabited Entry := ⟨⟨[], 0, []⟩⟩

/-- `self.playlists = ('.m3u','.m3u8')` from `M3U.__init__`. -/
def playlistExts : List Str := [".m3u".data, ".m3u8".data]

/-- `self.songs = ('.mp3','.m4a','.flac')` from `M3U.__init__`. -/
def songExts : List Str := [".mp3".data, ".m4a".data, ".flac".data]

/-- `pth.glob(f'*{ext}')` for each `ext in exts`, with `files.extend`:
`fnmatch` of the pattern `*ext` holds exactly when the entry name ends with
`ext` (pathlib's glob also matches names starting with a dot). -/
def globFiles (entries : List Entry) (exts : List Str) : List Entry :=
  exts.flatMap (fun ext => entries.filter (fun e => ext.isSuffixOf e.name))

/-- The Song-category enumeration of a directory (body of `get_file_list`
in the `is_dir` branch with `filetype == 's'`). -/
def songEnum (entries : List Entry) : List Entry :=
  globFiles entries songExts

/-- Position of the last '.' in a string, if any (Python `str.rfind('.')`
restricted to a found result). -/
def lastDotPos : Str → Option Nat
  | [] => none
  | c :: rest =>
    match lastDotPos rest with
    | some i => some (i + 1)
    | none => if c = '.' then some 0 else none

/-- `pathlib.PurePath.suffix` on a file name: the part from the last dot on,
unless that dot is the first character or the last character. -/
def pySuffix (name : Str) : Str :=
  match lastDotPos name with
  | some i => if 0 < i ∧ i + 1 < name.length then name.drop i else []
  | none => []

/-- The source argument of `get_file_list`: a directory with its entries,
a single file, or a path that exists as neither. -/
inductive FSource where
  | dir (entries : List Entry)
  | file (e : Entry)
  | missing

/-- `M3U.get_file_list`: `none` models the bare `return` on an invalid
filetype selector; otherwise the glob result for a directory, a singleton
or empty list for a single file, and an empty list for a missing path. -/
def get_file_list (src : FSource) (filetype : Char) : Option (List Entry) :=
  if filetype = 'p' ∨ filetype = 's' then
    let exts := if filetype = 'p' then playlistExts else songExts
    match src with
    | FSource.dir entries => some (globFiles entries exts)
    | FSource.file e => some (if pySuffix e.name ∈ exts then [e] else [])
    | FSource.missing => some []
  else
    none

/-- Fuel-indexed core of Python `str.replace(old, new)` with `new = ''`:
leftmost, non-overlapping removal of every occurrence of `pat`.  The fuel
is at least the length of the scanned list wherever `removeAll` uses it. -/
def removeAllFuel (pat : Str) : Nat → Str → Str
  | 0, l => l
  | _ + 1, [] => []
  | fuel + 1, c :: rest =>
    if pat ≠ [] ∧ pat <+: (c :: rest) then
      removeAllFuel pat fuel ((c :: rest).drop pat.length)
    else
      c :: removeAllFuel pat fuel rest

/-- Python `s.replace(pat, '')`: every occurrence of `pat` removed
(leftmost, non-overlapping); for an empty `pat` the string is unchanged. -/
def removeAll (pat l : Str) : Str :=
  removeAllFuel pat l.length l

/-- The display title computed in `create_playlist`:
`i.name.replace(i.suffix, '')`. -/
def titleOf (e : Entry) : Str :=
  removeAll (pySuffix e.name) e.name

/-- The spec's reading of the title ("the filename minus its trailing
suffix"): the name with only the final suffix occurrence dropped. -/
def specTitle (name : Str) : Str :=
  name.take (name.length - (pySuffix name).length)

/-- Default second argument of `get_valid_filename`:
the Python literal `"%:/,\\[]<>*?"`. -/
def defaultRm : Str := "%:/,\\[]<>*?".data

/-- `M3U.get_valid_filename`: keep characters not in `rm`, then replace
each space with a hyphen. -/
def get_valid_filename (src rm : Str) : Str :=
  (src.filter (fun c => decide (c ∉ rm))).map (fun c => if c = ' ' then '-' else c)

/-- The sort key relation of `sorted(songs, key=lambda s: s.stat().st_mtime)`. -/
def mtimeLe (a b : Entry) : Prop := a.mtime ≤ b.mtime

instance : DecidableRel mtimeLe := fun a b => Nat.decLe a.mtime b.mtime

instance : IsTotal Entry mtimeLe := ⟨fun a b => Nat.le_total a.mtime b.mtime⟩

instance : IsTrans Entry mtimeLe := ⟨fun _ _ _ => Nat.le_trans⟩

/-- `sorted(songs, key=lambda s: s.stat().st_mtime)`: a stable ascending
sort by modification time. -/
def sortSongs (songs : List Entry) : List Entry :=
  List.insertionSort mtimeLe songs

/-- The sequence in which `create_playlist` writes entries:
`reversed(sort_songs)`, i.e. newest-modified first. -/
def revSorted (entries : List Entry) : List Entry :=
  (sortSongs (songEnum entries)).reverse

/-- Fuel-indexed decimal rendering of a natural number (digits of `str(i)`). -/
def natStrAux : Nat → Nat → Str
  | 0, _ => []
  | fuel + 1, n =>
    if n < 10 then [Nat.digitChar n]
    else natStrAux fuel (n / 10) ++ [Nat.digitChar (n % 10)]

/-- Decimal rendering of a natural number, as in the f-string `{i}`. -/
def natStr (n : Nat) : Str := natStrAux (n + 1) n

/-- The line `#EXTINF:{i},{title}` written for each playlist entry. -/
def extinfLine (i : Nat) (title : Str) : Str :=
  "#EXTINF:".data ++ natStr i ++ ',' :: title

/-- The string form of a glob result: `source/name`. -/
def songPath (source : Str) (e : Entry) : Str :=
  source ++ '/' :: e.name

/-- The `#EXTINF`/path line pairs written by the loop of `create_playlist`,
in writing order. -/
def playlistEntries (source : Str) (entries : List Entry) : List Str :=
  (List.enumFrom 0 (revSorted entries)).flatMap
    (fun p => [extinfLine p.1 (titleOf p.2), songPath source p.2])

/-- All lines of the generated playlist: the `#EXTM3U` header followed by
the entry line pairs. -/
def playlistLines (source : Str) (entries : List Entry) : List Str :=
  "#EXTM3U".data :: playlistEntries source entries

/-- Join lines into file content; every `pls.write` in `create_playlist`
terminates each line with `\n`. -/
def renderLines (lines : List Str) : Str :=
  lines.flatMap (fun l => l ++ ['\n'])

/-- `M3U.create_playlist`: the content of the file written for a source
directory (the playlist's own filename is sanitized separately). -/
def create_playlist (source : Str) (entries : List Entry) : Str :=
  renderLines (playlistLines source entries)

/-- Core of splitting a string at a separator character, accumulator form
(Python `str.split(sep)` for a one-character separator). -/
def splitCharAux (sep : Char) : Str → Str → List Str
  | [], acc => [acc.reverse]
  | c :: rest, acc =>
    if c = sep then acc.reverse :: splitCharAux sep rest []
    else splitCharAux sep rest (c :: acc)

/-- Python `str.split(sep)` for a one-character separator: the separators
are dropped and the result is always nonempty. -/
def splitChar (sep : Char) (l : Str) : List Str :=
  splitCharAux sep l []

/-- `line.split(",")[-1]`: the last comma-separated segment of a line. -/
def extinfTitle (line : Str) : Str :=
  (splitChar ',' line).getLastD []

/-- Every second element of a list, starting with the second one. -/
def oddElems : List α → List α
  | _ :: b :: rest => b :: oddElems rest
  | _ => []

/-- Modelled from the spec: the repository has no playlist parser, so the
re-parsing step of the round-trip property follows the spec's format
description ("header line `#EXTM3U`, followed by repeating pairs of
(`#EXTINF:<index>,<title>` line, `<path>` line)"): split the content into
newline-separated lines, drop the header, and take the path line of each
pair. -/
def parsePlaylist (content : Str) : List Str :=
  oddElems ((splitChar '\n' content).tail)

/-- Accumulator core of Python `file.readlines()`: split after each
newline, keeping the newline at the end of each line. -/
def readlinesAux : Str → Str → List Str
  | [], acc => if acc.isEmpty then [] else [acc.reverse]
  | c :: rest, acc =>
    if c = '\n' then (acc.reverse ++ ['\n']) :: readlinesAux rest []
    else readlinesAux rest (c :: acc)

/-- Python `file.readlines()` on the whole content: lines with their
trailing newline kept; a final unterminated line is kept as-is. -/
def pyReadlines (content : Str) : List Str :=
  readlinesAux content []

/-- The guard `v.startswith('http') or v.startswith('rtps')` of
`check_urls`, applied to the raw line. -/
def isUrlLine (v : Str) : Bool :=
  "http".data.isPrefixOf v || "rtps".data.isPrefixOf v

/-- Python list indexing with negative-index wraparound, as in `lines[i-1]`. -/
def pyIdx (l : List Str) (i : Int) : Str :=
  if i < 0 then l.getD (l.length - (-i).toNat) [] else l.getD i.toNat []

/-- The titles printed by the broken-link diagnostics of `check_urls`: for
each index `i` whose line starts with `http`/`rtps` and fails the check,
`lines[i-1].split(",")[-1]`. -/
def diagTitles (check : Str → Bool) (lines : List Str) : List Str :=
  ((List.range lines.length).filter (fun i =>
      isUrlLine (lines.getD i []) && !(check (lines.getD i [])))).map
    (fun i : Nat => extinfTitle (pyIdx lines ((i : Int) - 1)))

/-- The strings `check_urls` passes to `check_stream` for a playlist file
with the given content: the raw `readlines` lines matching the URL guard,
unstripped. -/
def checkedStreams (content : Str) : List Str :=
  (pyReadlines content).filter isUrlLine

/-- The outcome of `urllib.request.urlopen(url, timeout).getcode()`:
either a status code or an exception. -/
abbrev NetResult := Except Unit Nat

/-- `M3U.check_stream`: the bare `except` maps every exception to code 0,
and the result is the comparison `code == 200`. -/
def check_stream (r : NetResult) : Bool :=
  (match r with
   | Except.ok c => c
   | Except.error _ => 0) == 200

/-- Destination filename computed by `copy_sorted_songs`:
`f'{s.name}.{s.suffix}'` (the directory prefix is modelled away). -/
def destFileName (e : Entry) : Str :=
  e.name ++ '.' :: pySuffix e.name

/-- Lookup in the destination directory, modelled as an association list
from filename to content (`os.path.exists` is `isSome` of this). -/
def fsLookup : List (Str × Str) → Str → Option Str
  | [], _ => none
  | p :: rest, k => if p.1 = k then some p.2 else fsLookup rest k

/-- One iteration of the copy loop: skip when the destination file exists
(`continue`), otherwise `shutil.copyfile` creates it with the source
content. -/
def copyOne (fs : List (Str × Str)) (e : Entry) : List (Str × Str) :=
  if (fsLookup fs (destFileName e)).isSome then fs
  else fs ++ [(destFileName e, e.content)]

/-- `M3U.copy_sorted_songs`: the destination directory after copying the
enumerated songs in ascending modification-time order. -/
def copy_sorted_songs (fs0 : List (Str × Str)) (entries : List Entry) : List (Str × Str) :=
  (sortSongs (songEnum entries)).foldl copyOne fs0

/-- A hidden file whose whole name is `.mp3`: globbed by `*.mp3`, yet its
pathlib suffix is empty. -/
def dotFile : Entry := ⟨".mp3".data, 0, []⟩

/-- A two-song directory used by concrete witnesses. -/
def demoDir : List Entry := [⟨"a.mp3".data, 1, []⟩, ⟨"b.mp3".data, 2, []⟩]

/-- A source-directory path used by concrete witnesses. -/
def demoSrc : Str := "d".data

/-- A destination directory that already holds the (double-extension) copy
target of `b.mp3`, with distinct content. -/
def demoFs : List (Str × Str) := [("b.mp3..mp3".data, "old".data)]

/-- A two-line playlist whose URL line comes first, used by concrete
witnesses. -/
def demoLines : List Str := ["http://x".data, "#EXTINF:0,T".data]

example : pySuffix "A.mp3.mp3".data = ".mp3".data := by decide
example : titleOf ⟨"A.mp3.mp3".data, 0, []⟩ = "A".data := by decide
example : specTitle "A.mp3.mp3".data = "A.mp3".data := by decide
example : get_valid_filename "a b%c".data defaultRm = "a-bc".data := by decide
example : pyReadlines "ab\nc".data = ["ab\n".data, "c".data] := by decide
example : splitChar ',' "#EXTINF:0,T".data = ["#EXTINF:0".data, "T".data] := by decide
example : natStr 12 = "12".data := by decide

lemma pyIdx_eq_getD (lines : List Str) (i : Nat) (hi : i < lines.length) :
    pyIdx lines ((i : Int) - 1) =
      lines.getD ((i + lines.length - 1) % lines.length) [] := by
  cases i with
  | zero =>
    have h1 : ((0 : Nat) : Int) - 1 < 0 := by decide
    have h2 : (0 + lines.length - 1) % lines.length = lines.length - 1 := by
      have : lines.length - 1 < lines.length := by omega
      simp [Nat.mod_eq_of_lt this]
    rw [h2]
    simp only [pyIdx, if_pos h1]
    norm_num
  | succ j =>
    have h1 : ¬ (((j + 1 : Nat) : Int) - 1 < 0) := by
      push_cast
      omega
    have h2 : (j + 1 + lines.length - 1) % lines.length = j := by
      have hj : j < lines.length := by omega
      have : j + 1 + lines.length - 1 = j + lines.length := by omega
      rw [this, Nat.add_mod_right, Nat.mod_eq_of_lt hj]
    rw [h2]
    simp only [pyIdx, if_neg h1]
    norm_num

lemma splitCharAux_no_sep (sep : Char) :
    ∀ (l rest acc : Str), sep ∉ l →
      splitCharAux sep (l ++ rest) acc = splitCharAux sep rest (l.reverse ++ acc) := by
  intro l
  induction l with
  | nil => intro rest acc _; simp
  | cons c l ih =>
    intro rest acc hmem
    have hc : ¬ c = sep := fun h => hmem (h ▸ List.mem_cons_self c l)
    have hl : sep ∉ l := fun h => hmem (List.mem_cons_of_mem c h)
    simp only [List.cons_append, splitCharAux, if_neg hc, List.append_eq]
    rw [ih rest (c :: acc) hl]
    simp

lemma splitChar_render (sep : Char) :
    ∀ (L : List Str), (∀ l ∈ L, sep ∉ l) →
      splitChar sep (L.flatMap (fun l => l ++ [sep])) = L ++ [[]] := by
  intro L
  induction L with
  | nil => intro _; simp [splitChar, splitCharAux]
  | cons l L ih =>
    intro h
    have hl : sep ∉ l := h l (List.mem_cons_self l L)
    have hL : ∀ x ∈ L, sep ∉ x := fun x hx => h x (List.mem_cons_of_mem l hx)
    simp only [List.flatMap_cons, splitChar]
    have : (l ++ [sep]) ++ L.flatMap (fun x => x ++ [sep]) =
        l ++ (sep :: L.flatMap (fun x => x ++ [sep])) := by simp
    rw [this, splitCharAux_no_sep sep l _ [] hl]
    simp only [splitCharAux, if_pos rfl]
    rw [show (l.reverse ++ ([] : Str)).reverse = l by simp]
    have := ih hL
    simp only [splitChar] at this
    rw [this]
    simp

lemma readlinesAux_flatten :
    ∀ (l acc : Str), (readlinesAux l acc).flatten = acc.reverse ++ l := by
  intro l
  induction l with
  | nil =>
    intro acc
    by_cases h : acc.isEmpty
    · have : acc = [] := List.isEmpty_iff.mp h
      subst this
      simp [readlinesAux]
    · simp [readlinesAux, h]
  | cons c l ih =>
    intro acc
    by_cases h : c = '\n'
    · subst h
      have hstep : readlinesAux ('\n' :: l) acc = (acc.reverse ++ ['\n']) :: readlinesAux l [] := by
        simp [readlinesAux]
      rw [hstep, List.flatten_cons, ih []]
      simp
    · simp only [readlinesAux, if_neg h]
      rw [ih (c :: acc)]
      simp

lemma readlinesAux_dropLast_newline :
    ∀ (l acc line : Str), line ∈ (readlinesAux l acc).dropLast →
      line.getLast? = some '\n' := by
  intro l
  induction l with
  | nil =>
    intro acc line h
    by_cases he : acc.isEmpty <;> simp [readlinesAux, he] at h
  | cons c l ih =>
    intro acc line h
    by_cases hc : c = '\n'
    · subst hc
      have hstep : readlinesAux ('\n' :: l) acc = (acc.reverse ++ ['\n']) :: readlinesAux l [] := by
        simp [readlinesAux]
      rw [hstep] at h
      rcases hR : readlinesAux l [] with _ | ⟨y, R⟩
      · rw [hR] at h
        simp at h
      · rw [hR] at h
        rw [List.dropLast_cons₂] at h
        rcases List.mem_cons.mp h with h1 | h2
        · subst h1
          exact List.getLast?_concat _
        · exact ih [] line (hR ▸ h2)
    · simp only [readlinesAux, if_neg hc] at h
      exact ih (c :: acc) line h

lemma oddElems_pairs (f g : Nat × Entry → Str) (x : Str) :
    ∀ (L : List (Nat × Entry)),
      oddElems (L.flatMap (fun p => [f p, g p]) ++ [x]) = L.map g := by
  intro L
  induction L with
  | nil => rfl
  | cons p L ih =>
    have hstep : ((p :: L).flatMap fun q => [f q, g q]) ++ [x]
        = f p :: g p :: ((L.flatMap fun q => [f q, g q]) ++ [x]) := by
      simp [List.flatMap_cons]
    rw [hstep]
    simp only [oddElems, List.map_cons]
    rw [ih]

lemma lastDotPos_eq_none (l : Str) (h : '.' ∉ l) : lastDotPos l = none := by
  induction l with
  | nil => rfl
  | cons c rest ih =>
    have hc : ¬ c = '.' := fun hcc => h (hcc ▸ List.mem_cons_self c rest)
    have hr : '.' ∉ rest := fun hm => h (List.mem_cons_of_mem c hm)
    simp [lastDotPos, ih hr, hc]

lemma lastDotPos_append (p r : Str) (hr : '.' ∉ r) :
    lastDotPos (p ++ '.' :: r) = some p.length := by
  induction p with
  | nil => simp [lastDotPos, lastDotPos_eq_none r hr]
  | cons c p ih => simp [lastDotPos, ih]

lemma pySuffix_append (p r : Str) (hp : p ≠ []) (hrne : r ≠ []) (hr : '.' ∉ r) :
    pySuffix (p ++ '.' :: r) = '.' :: r := by
  have hcond : 0 < p.length ∧ p.length + 1 < (p ++ '.' :: r).length := by
    constructor
    · exact List.length_pos.mpr hp
    · have : r.length > 0 := List.length_pos.mpr hrne
      simp only [List.length_append, List.length_cons]
      omega
  simp only [pySuffix, lastDotPos_append p r hr, if_pos hcond]
  exact List.drop_left p ('.' :: r)

lemma pySuffix_decomp (name : Str) : ∃ stem, name = stem ++ pySuffix name := by
  cases h : lastDotPos name with
  | none => exact ⟨name, by simp [pySuffix, h]⟩
  | some i =>
    by_cases hc : 0 < i ∧ i + 1 < name.length
    · refine ⟨name.take i, ?_⟩
      simp only [pySuffix, h, if_pos hc]
      exact (List.take_append_drop i name).symm
    · refine ⟨name, ?_⟩
      simp only [pySuffix, h, if_neg hc]
      simp

lemma removeAllFuel_nil (pat : Str) : ∀ fuel, removeAllFuel pat fuel [] = [] := by
  intro fuel
  cases fuel <;> rfl

lemma removeAllFuel_subset (pat : Str) :
    ∀ (fuel : Nat) (l : Str) (c : Char), c ∈ removeAllFuel pat fuel l → c ∈ l := by
  intro fuel
  induction fuel with
  | zero => intro l c h; exact h
  | succ fuel ih =>
    intro l c h
    cases l with
    | nil => simp [removeAllFuel] at h
    | cons x rest =>
      by_cases hp : pat ≠ [] ∧ pat <+: (x :: rest)
      · rw [show removeAllFuel pat (fuel + 1) (x :: rest)
            = removeAllFuel pat fuel ((x :: rest).drop pat.length) from by
          simp [removeAllFuel, hp]] at h
        exact List.mem_of_mem_drop (ih _ c h)
      · rw [show removeAllFuel pat (fuel + 1) (x :: rest)
            = x :: removeAllFuel pat fuel rest from by
          simp only [removeAllFuel, if_neg hp]] at h
        rcases List.mem_cons.mp h with h1 | h2
        · exact h1 ▸ List.mem_cons_self x rest
        · exact List.mem_cons_of_mem x (ih rest c h2)

lemma removeAllFuel_clean_stem (r : Str) :
    ∀ (stem : Str) (fuel : Nat), '.' ∉ stem →
      stem.length + r.length + 1 ≤ fuel →
      removeAllFuel ('.' :: r) fuel (stem ++ '.' :: r) = stem := by
  intro stem
  induction stem with
  | nil =>
    intro fuel _ hf
    cases fuel with
    | zero => omega
    | succ fuel =>
      have hp : ('.' :: r : Str) ≠ [] ∧ ('.' :: r : Str) <+: ('.' :: r) :=
        ⟨List.cons_ne_nil _ _, List.prefix_refl _⟩
      simp only [List.nil_append, removeAllFuel, if_pos hp, List.drop_length]
      exact removeAllFuel_nil _ fuel
  | cons c stem ih =>
    intro fuel hdot hf
    have hc : ¬ c = '.' := fun hcc => hdot (hcc ▸ List.mem_cons_self c stem)
    have hdot2 : '.' ∉ stem := fun hm => hdot (List.mem_cons_of_mem c hm)
    cases fuel with
    | zero => simp at hf
    | succ fuel =>
      have hnp : ¬ (('.' :: r : Str) ≠ [] ∧ ('.' :: r : Str) <+: (c :: (stem ++ '.' :: r))) := by
        rintro ⟨-, hpre⟩
        exact hc (List.cons_prefix_cons.mp hpre).1.symm
      have hstep : removeAllFuel ('.' :: r) (fuel + 1) ((c :: stem) ++ '.' :: r)
          = c :: removeAllFuel ('.' :: r) fuel (stem ++ '.' :: r) := by
        simp only [List.cons_append, removeAllFuel, List.append_eq, if_neg hnp]
      rw [hstep, ih fuel hdot2 (by simp only [List.length_cons] at hf; omega)]

lemma titleOf_clean (stem r : Str) (hstem : stem ≠ []) (hrne : r ≠ [])
    (hdr : '.' ∉ r) (hds : '.' ∉ stem) :
    titleOf ⟨stem ++ '.' :: r, 0, []⟩ = stem ∧
      pySuffix (stem ++ '.' :: r) = '.' :: r := by
  have hsuf := pySuffix_append stem r hstem hrne hdr
  refine ⟨?_, hsuf⟩
  simp only [titleOf, removeAll, hsuf]
  apply removeAllFuel_clean_stem r stem _ hds
  simp only [List.length_append, List.length_cons]
  omega

lemma natStrAux_no_newline :
    ∀ (fuel n : Nat) (c : Char), c ∈ natStrAux fuel n → c ≠ '\n' := by
  intro fuel
  induction fuel with
  | zero => intro n c h; simp [natStrAux] at h
  | succ fuel ih =>
    intro n c h
    have hdig : ∀ m : Nat, m < 10 → Nat.digitChar m ≠ '\n' := by decide
    by_cases hn : n < 10
    · simp only [natStrAux, if_pos hn, List.mem_singleton] at h
      exact h ▸ hdig n hn
    · simp only [natStrAux, if_neg hn, List.mem_append, List.mem_singleton] at h
      rcases h with h1 | h2
      · exact ih (n / 10) c h1
      · exact h2 ▸ hdig (n % 10) (Nat.mod_lt n (by omega))

lemma sortSongs_perm (l : List Entry) : List.Perm (sortSongs l) l :=
  List.perm_insertionSort mtimeLe l

lemma revSorted_perm (entries : List Entry) :
    List.Perm (revSorted entries) (songEnum entries) :=
  (List.reverse_perm (sortSongs (songEnum entries))).trans
    (sortSongs_perm (songEnum entries))

lemma revSorted_desc (entries : List Entry)
    (hd : (songEnum entries).Pairwise (fun a b => a.mtime ≠ b.mtime)) :
    (revSorted entries).Pairwise (fun a b => b.mtime < a.mtime) := by
  have hsorted : List.Sorted mtimeLe (sortSongs (songEnum entries)) :=
    List.sorted_insertionSort mtimeLe (songEnum entries)
  have hge : (revSorted entries).Pairwise (fun a b => mtimeLe b a) :=
    List.pairwise_reverse.mpr hsorted
  have hsym : ∀ {a b : Entry}, a.mtime ≠ b.mtime → b.mtime ≠ a.mtime :=
    fun h => h.symm
  have hne : (revSorted entries).Pairwise (fun a b => a.mtime ≠ b.mtime) :=
    ((revSorted_perm entries).symm.pairwise_iff hsym).mp hd
  exact (hge.and hne).imp (fun h => Nat.lt_of_le_of_ne h.1 (Ne.symm h.2))

lemma pairFlat_length (f g : Nat × Entry → Str) :
    ∀ (L : List Entry) (k : Nat),
      ((List.enumFrom k L).flatMap (fun p => [f p, g p])).length = 2 * L.length := by
  intro L
  induction L with
  | nil => intro k; rfl
  | cons a L ih =>
    intro k
    simp only [List.enumFrom, List.flatMap_cons, List.length_append, List.length_cons,
      List.length_nil, ih (k + 1), List.length_cons]
    omega

lemma pairFlat_getD (f g : Nat × Entry → Str) :
    ∀ (L : List Entry) (k j : Nat), j < L.length →
      ((List.enumFrom k L).flatMap (fun p => [f p, g p])).getD (2 * j) []
          = f (k + j, L.getD j default) ∧
        ((List.enumFrom k L).flatMap (fun p => [f p, g p])).getD (2 * j + 1) []
          = g (k + j, L.getD j default) := by
  intro L
  induction L with
  | nil => intro k j hj; simp at hj
  | cons a L ih =>
    intro k j hj
    have hstep : ((List.enumFrom k (a :: L)).flatMap (fun p => [f p, g p]))
        = f (k, a) :: g (k, a) :: ((List.enumFrom (k + 1) L).flatMap (fun p => [f p, g p])) := by
      simp [List.enumFrom, List.flatMap_cons]
    rw [hstep]
    cases j with
    | zero => simp
    | succ j =>
      have hj2 : j < L.length := by simpa using Nat.lt_of_succ_lt_succ hj
      have h1 : 2 * (j + 1) = (2 * j) + 2 := by omega
      have h2 : 2 * (j + 1) + 1 = (2 * j + 1) + 2 := by omega
      rcases ih (k + 1) j hj2 with ⟨ih1, ih2⟩
      have hk : k + 1 + j = k + (j + 1) := by omega
      constructor
      · rw [h1]
        simp only [List.getD_cons_succ]
        rw [ih1, hk]
      · rw [h2]
        simp only [List.getD_cons_succ]
        rw [ih2, hk]

lemma fsLookup_append_of_some (fs tl : List (Str × Str)) (k : Str) (v : Str)
    (h : fsLookup fs k = some v) : fsLookup (fs ++ tl) k = some v := by
  induction fs with
  | nil => simp [fsLookup] at h
  | cons p fs ih =>
    by_cases hp : p.1 = k
    · simpa [fsLookup, hp] using by simpa [fsLookup, hp] using h
    · simp only [fsLookup, if_neg hp] at h
      simpa [fsLookup, hp] using ih h

lemma fsLookup_append_single_none (fs : List (Str × Str)) (k : Str) (v : Str)
    (h : fsLookup fs k = none) : fsLookup (fs ++ [(k, v)]) k = some v := by
  induction fs with
  | nil => simp [fsLookup]
  | cons p fs ih =>
    by_cases hp : p.1 = k
    · simp [fsLookup, hp] at h
    · simp only [fsLookup, if_neg hp] at h
      simpa [fsLookup, hp] using ih h

lemma fsLookup_append_single_other (fs : List (Str × Str)) (k q : Str) (v : Str)
    (hne : q ≠ k) : fsLookup (fs ++ [(q, v)]) k = fsLookup fs k := by
  induction fs with
  | nil => simp [fsLookup, hne]
  | cons p fs ih =>
    by_cases hp : p.1 = k
    · simp [fsLookup, hp]
    · simpa [fsLookup, hp] using ih

lemma copyOne_preserve (fs : List (Str × Str)) (e : Entry) (k : Str) (v : Str)
    (h : fsLookup fs k = some v) : fsLookup (copyOne fs e) k = some v := by
  unfold copyOne
  split
  · exact h
  · exact fsLookup_append_of_some fs _ k v h

lemma copyFold_preserve :
    ∀ (ss : List Entry) (fs : List (Str × Str)) (k : Str) (v : Str),
      fsLookup fs k = some v → fsLookup (ss.foldl copyOne fs) k = some v := by
  intro ss
  induction ss with
  | nil => intro fs k v h; exact h
  | cons a ss ih =>
    intro fs k v h
    exact ih (copyOne fs a) k v (copyOne_preserve fs a k v h)

lemma copyOne_other (fs : List (Str × Str)) (a : Entry) (k : Str)
    (hne : destFileName a ≠ k) : fsLookup (copyOne fs a) k = fsLookup fs k := by
  unfold copyOne
  split
  · rfl
  · exact fsLookup_append_single_other fs k (destFileName a) a.content hne

lemma copyFold_new :
    ∀ (ss : List Entry) (fs : List (Str × Str)) (e : Entry),
      ss.Pairwise (fun a b => destFileName a ≠ destFileName b) →
      e ∈ ss → fsLookup fs (destFileName e) = none →
      fsLookup (ss.foldl copyOne fs) (destFileName e) = some e.content := by
  intro ss
  induction ss with
  | nil => intro fs e _ hmem; simp at hmem
  | cons a ss ih =>
    intro fs e hpw hmem hnone
    rcases List.pairwise_cons.mp hpw with ⟨ha, hpw2⟩
    rcases List.mem_cons.mp hmem with h1 | h2
    · subst h1
      have hcopy : copyOne fs e = fs ++ [(destFileName e, e.content)] := by
        unfold copyOne
        rw [if_neg (by simp [hnone])]
      rw [List.foldl_cons, hcopy]
      exact copyFold_preserve ss _ _ _
        (fsLookup_append_single_none fs (destFileName e) e.content hnone)
    · have hne : destFileName a ≠ destFileName e := ha e h2
      rw [List.foldl_cons]
      exact ih (copyOne fs a) e hpw2 h2 ((copyOne_other fs a _ hne).trans hnone)

lemma playlistEntries_length (source : Str) (entries : List Entry) :
    (playlistEntries source entries).length = 2 * (revSorted entries).length := by
  have := pairFlat_length (fun p => extinfLine p.1 (titleOf p.2))
    (fun p => songPath source p.2) (revSorted entries) 0
  simpa [playlistEntries] using this

lemma playlistEntries_getD (source : Str) (entries : List Entry) :
    ∀ j, j < (revSorted entries).length →
      (playlistEntries source entries).getD (2 * j) []
          = extinfLine j (titleOf ((revSorted entries).getD j default)) ∧
        (playlistEntries source entries).getD (2 * j + 1) []
          = songPath source ((revSorted entries).getD j default) := by
  intro j hj
  have h := pairFlat_getD (fun p => extinfLine p.1 (titleOf p.2))
    (fun p => songPath source p.2) (revSorted entries) 0 j hj
  simpa [playlistEntries] using h

lemma mem_songEnum_iff (entries : List Entry) (e : Entry) :
    e ∈ songEnum entries ↔ e ∈ entries ∧ ∃ ext ∈ songExts, ext <:+ e.name := by
  constructor
  · intro h
    rcases List.mem_flatMap.mp h with ⟨ext, hext, hmem⟩
    rcases List.mem_filter.mp hmem with ⟨he, hsuf⟩
    exact ⟨he, ext, hext, List.isSuffixOf_iff_suffix.mp hsuf⟩
  · rintro ⟨he, ext, hext, hsuf⟩
    exact List.mem_flatMap.mpr ⟨ext, hext,
      List.mem_filter.mpr ⟨he, List.isSuffixOf_iff_suffix.mpr hsuf⟩⟩

lemma pySuffix_of_ext (p : Str) (hp : p ≠ []) (ext : Str) (hext : ext ∈ songExts) :
    pySuffix (p ++ ext) = ext := by
  fin_cases hext
  · rw [show (".mp3".data : Str) = '.' :: "mp3".data from rfl]
    exact pySuffix_append p "mp3".data hp (by decide) (by decide)
  · rw [show (".m4a".data : Str) = '.' :: "m4a".data from rfl]
    exact pySuffix_append p "m4a".data hp (by decide) (by decide)
  · rw [show (".flac".data : Str) = '.' :: "flac".data from rfl]
    exact pySuffix_append p "flac".data hp (by decide) (by decide)

lemma enumFrom_map_path (source : Str) (L : List Entry) :
    (List.enumFrom 0 L).map (fun p => songPath source p.2) = L.map (songPath source) := by
  rw [show (fun p : Nat × Entry => songPath source p.2)
      = (songPath source) ∘ Prod.snd from rfl, ← List.map_map, List.enumFrom_map_snd]

lemma playlistLines_no_newline (source : Str) (entries : List Entry)
    (hsrc : '\n' ∉ source) (hnames : ∀ e ∈ songEnum entries, '\n' ∉ e.name) :
    ∀ l ∈ playlistLines source entries, '\n' ∉ l := by
  intro l hl
  rcases List.mem_cons.mp hl with h1 | h2
  · subst h1
    decide
  · rcases List.mem_flatMap.mp h2 with ⟨p, hp, hlp⟩
    have hp2 : p.2 ∈ revSorted entries := by
      have hsnd := List.enumFrom_map_snd 0 (revSorted entries)
      exact hsnd ▸ List.mem_map_of_mem Prod.snd hp
    have hname : '\n' ∉ p.2.name :=
      hnames p.2 ((revSorted_perm entries).mem_iff.mp hp2)
    have htitle : '\n' ∉ titleOf p.2 := by
      intro hmem
      exact hname (removeAllFuel_subset (pySuffix p.2.name) _ _ '\n' hmem)
    rcases List.mem_cons.mp hlp with hl1 | hl2
    · subst hl1
      intro hmem
      simp only [extinfLine, List.mem_append, List.mem_cons] at hmem
      rcases hmem with (hA | hB) | hC
      · revert hA
        decide
      · exact natStrAux_no_newline _ _ '\n' hB rfl
      · rcases hC with hc1 | hc2
        · exact absurd hc1 (by decide)
        · exact htitle hc2
    · have hl3 : l = songPath source p.2 := by simpa using hl2
      subst hl3
      intro hmem
      simp only [songPath, List.mem_append, List.mem_cons] at hmem
      rcases hmem with hA | hB | hC
      · exact hsrc hA
      · exact absurd hB (by decide)
      · exact hname hC

/-- C1: for a source directory whose Song files have pairwise distinct
modification times, the generated playlist's first line is the literal
`#EXTM3U`, followed by one `#EXTINF:<index>,<title>` / `<path>` line pair
per Song file, with the files in descending modification-time order
(newest first) and the index starting at 0 and incrementing by 1. -/
theorem create_playlist_lines_spec (source : Str) (entries : List Entry)
    (hd : (songEnum entries).Pairwise (fun a b => a.mtime ≠ b.mtime)) :
    (playlistLines source entries).getD 0 [] = "#EXTM3U".data ∧
      List.Perm (revSorted entries) (songEnum entries) ∧
      (revSorted entries).Pairwise (fun a b => b.mtime < a.mtime) ∧
      (playlistLines source entries).length = 1 + 2 * (revSorted entries).length ∧
      ∀ j, j < (revSorted entries).length →
        (playlistLines source entries).getD (1 + 2 * j) []
            = extinfLine j (titleOf ((revSorted entries).getD j default)) ∧
          (playlistLines source entries).getD (2 + 2 * j) []
            = songPath source ((revSorted entries).getD j default) := by
  refine ⟨rfl, revSorted_perm entries, revSorted_desc entries hd, ?_, ?_⟩
  · simp only [playlistLines, List.length_cons, playlistEntries_length]
    omega
  · intro j hj
    rcases playlistEntries_getD source entries j hj with ⟨h1, h2⟩
    constructor
    · have e1 : 1 + 2 * j = 2 * j + 1 := by omega
      rw [e1]
      show ("#EXTM3U".data :: playlistEntries source entries).getD (2 * j + 1) [] = _
      rw [List.getD_cons_succ]
      exact h1
    · have e2 : 2 + 2 * j = (2 * j + 1) + 1 := by omega
      rw [e2]
      show ("#EXTM3U".data :: playlistEntries source entries).getD ((2 * j + 1) + 1) [] = _
      rw [List.getD_cons_succ]
      exact h2

/-- C1 witness: the two-song demo directory instantiates the playlist-shape
theorem. -/
theorem create_playlist_lines_spec_witness :
    ((songEnum demoDir).Pairwise (fun a b => a.mtime ≠ b.mtime)) ∧
      ((playlistLines demoSrc demoDir).getD 0 [] = "#EXTM3U".data ∧
        List.Perm (revSorted demoDir) (songEnum demoDir) ∧
        (revSorted demoDir).Pairwise (fun a b => b.mtime < a.mtime) ∧
        (playlistLines demoSrc demoDir).length = 1 + 2 * (revSorted demoDir).length ∧
        ∀ j, j < (revSorted demoDir).length →
          (playlistLines demoSrc demoDir).getD (1 + 2 * j) []
              = extinfLine j (titleOf ((revSorted demoDir).getD j default)) ∧
            (playlistLines demoSrc demoDir).getD (2 + 2 * j) []
              = songPath demoSrc ((revSorted demoDir).getD j default)) :=
  ⟨by decide, create_playlist_lines_spec demoSrc demoDir (by decide)⟩

/-- C2: `check_stream` returns true exactly when the request outcome is a
status code of 200; every exception is caught by the bare `except` and every
other status yields false. -/
theorem check_stream_ok_iff (r : NetResult) :
    check_stream r = true ↔ r = Except.ok 200 := by
  cases r with
  | ok c => simp [check_stream]
  | error e => simp [check_stream]

/-- C3 counterexample: a directory containing the single hidden file `.mp3`
is globbed by the pattern `*.mp3` and returned, yet that file's pathlib
extension is empty and hence not in the Song extension set. -/
theorem get_file_list_claim_cex :
    get_file_list (FSource.dir [dotFile]) 's' = some [dotFile] ∧
      pySuffix dotFile.name ∉ songExts := by
  decide

/-- C3 amended: the directory case returns exactly the entries whose NAME
ENDS WITH one of the Song extensions (glob semantics); this coincides with
extension membership except when the name IS a bare extension (a dotfile,
whose pathlib extension is empty); the single-file case is a singleton
exactly when the file's pathlib extension is in the set. -/
theorem get_file_list_amended (entries : List Entry) (e f : Entry) :
    (get_file_list (FSource.dir entries) 's' = some (songEnum entries)) ∧
      (e ∈ songEnum entries ↔ e ∈ entries ∧ ∃ ext ∈ songExts, ext <:+ e.name) ∧
      (e ∈ songEnum entries → pySuffix e.name ∈ songExts ∨ e.name ∈ songExts) ∧
      (get_file_list (FSource.file f) 's'
        = some (if pySuffix f.name ∈ songExts then [f] else [])) := by
  refine ⟨by simp [get_file_list, songEnum], mem_songEnum_iff entries e, ?_, by simp [get_file_list]⟩
  intro h
  rcases (mem_songEnum_iff entries e).mp h with ⟨-, ext, hext, hsuf⟩
  rcases hsuf with ⟨p, hp⟩
  by_cases hpe : p = []
  · subst hpe
    right
    simp only [List.nil_append] at hp
    exact hp ▸ hext
  · left
    rw [← hp, pySuffix_of_ext p hpe ext hext]
    exact hext

/-- C3 amended witness: `a.mp3` in the demo directory is enumerated and its
extension is indeed in the Song set. -/
theorem get_file_list_amended_witness :
    (⟨"a.mp3".data, 1, []⟩ : Entry) ∈ songEnum demoDir ∧
      (pySuffix ("a.mp3".data) ∈ songExts ∨ ("a.mp3".data : Str) ∈ songExts) :=
  ⟨by decide, (get_file_list_amended demoDir ⟨"a.mp3".data, 1, []⟩ dotFile).2.2.1 (by decide)⟩

/-- C4: when the line at index `i` starts with `http`/`rtps` and fails the
liveness check, the emitted diagnostic names the title obtained from
`lines[i-1].split(",")[-1]`, which is the line at index
`(i + n - 1) % n`; in particular for `i = 0` the title comes from the LAST
line of the file (Python index `-1`). -/
theorem check_urls_diag_title (check : Str → Bool) (lines : List Str) (i : Nat)
    (hi : i < lines.length)
    (hurl : isUrlLine (lines.getD i []) = true)
    (hfail : check (lines.getD i []) = false) :
    extinfTitle (lines.getD ((i + lines.length - 1) % lines.length) [])
        ∈ diagTitles check lines ∧
      (i = 0 →
        extinfTitle (lines.getD (lines.length - 1) []) ∈ diagTitles check lines) := by
  have hmemfilter : i ∈ (List.range lines.length).filter (fun i =>
      isUrlLine (lines.getD i []) && !(check (lines.getD i []))) := by
    refine List.mem_filter.mpr ⟨List.mem_range.mpr hi, ?_⟩
    simp only [hurl, hfail]
    rfl
  have hmain : extinfTitle (pyIdx lines ((i : Int) - 1)) ∈ diagTitles check lines := by
    unfold diagTitles
    exact List.mem_map_of_mem
      (fun j : Nat => extinfTitle (pyIdx lines ((j : Int) - 1))) hmemfilter
  rw [pyIdx_eq_getD lines i hi] at hmain
  refine ⟨hmain, fun h0 => ?_⟩
  subst h0
  have hmod : (0 + lines.length - 1) % lines.length = lines.length - 1 := by
    have hlt : lines.length - 1 < lines.length := by omega
    simp only [Nat.zero_add]
    exact Nat.mod_eq_of_lt hlt
  rw [hmod] at hmain
  exact hmain

/-- C4 witness: in a file whose first line is a failing URL, the diagnostic
title is taken from the last line of the file. -/
theorem check_urls_diag_title_witness :
    (0 < demoLines.length ∧ isUrlLine (demoLines.getD 0 []) = true ∧
        (fun _ : Str => false) (demoLines.getD 0 []) = false) ∧
      (extinfTitle (demoLines.getD ((0 + demoLines.length - 1) % demoLines.length) [])
          ∈ diagTitles (fun _ => false) demoLines ∧
        (0 = 0 →
          extinfTitle (demoLines.getD (demoLines.length - 1) [])
            ∈ diagTitles (fun _ => false) demoLines)) :=
  ⟨⟨by decide, by decide, by decide⟩,
    check_urls_diag_title (fun _ => false) demoLines 0 (by decide) (by decide) (by decide)⟩

/-- C5: re-parsing the playlist generated for a source directory yields
exactly the written sequence of file paths (newest-modified first), which is
a permutation — in particular the same set — of the paths of the
directory's Song enumeration. -/
theorem playlist_roundtrip (source : Str) (entries : List Entry)
    (hsrc : '\n' ∉ source) (hnames : ∀ e ∈ songEnum entries, '\n' ∉ e.name) :
    parsePlaylist (create_playlist source entries)
        = (revSorted entries).map (songPath source) ∧
      List.Perm ((revSorted entries).map (songPath source))
        ((songEnum entries).map (songPath source)) := by
  constructor
  · unfold parsePlaylist create_playlist renderLines
    rw [splitChar_render '\n' (playlistLines source entries)
      (playlistLines_no_newline source entries hsrc hnames)]
    simp only [playlistLines, List.cons_append, List.tail_cons]
    rw [show playlistEntries source entries
        = (List.enumFrom 0 (revSorted entries)).flatMap
            (fun p => [extinfLine p.1 (titleOf p.2), songPath source p.2]) from rfl]
    rw [oddElems_pairs (fun p => extinfLine p.1 (titleOf p.2))
      (fun p => songPath source p.2) [] (List.enumFrom 0 (revSorted entries))]
    exact enumFrom_map_path source (revSorted entries)
  · exact (revSorted_perm entries).map (songPath source)

/-- C5 witness: the round-trip theorem instantiated on the two-song demo
directory. -/
theorem playlist_roundtrip_witness :
    ('\n' ∉ demoSrc ∧ ∀ e ∈ songEnum demoDir, '\n' ∉ e.name) ∧
      (parsePlaylist (create_playlist demoSrc demoDir)
          = (revSorted demoDir).map (songPath demoSrc) ∧
        List.Perm ((revSorted demoDir).map (songPath demoSrc))
          ((songEnum demoDir).map (songPath demoSrc))) :=
  ⟨⟨by decide, by decide⟩, playlist_roundtrip demoSrc demoDir (by decide) (by decide)⟩

/-- C6: when destination filenames of the enumerated songs are pairwise
distinct, `copy_sorted_songs` leaves every pre-existing destination file
unchanged (skip, no overwrite, no error), copies every song whose
destination is initially absent with its source content, and the
destination ends up containing a file for every enumerated song. -/
theorem copy_sorted_songs_spec (fs0 : List (Str × Str)) (entries : List Entry)
    (hinj : (songEnum entries).Pairwise (fun a b => destFileName a ≠ destFileName b)) :
    (∀ k v, fsLookup fs0 k = some v →
        fsLookup (copy_sorted_songs fs0 entries) k = some v) ∧
      (∀ e ∈ songEnum entries, fsLookup fs0 (destFileName e) = none →
        fsLookup (copy_sorted_songs fs0 entries) (destFileName e) = some e.content) ∧
      (∀ e ∈ songEnum entries,
        (fsLookup (copy_sorted_songs fs0 entries) (destFileName e)).isSome) := by
  have hperm : List.Perm (sortSongs (songEnum entries)) (songEnum entries) :=
    sortSongs_perm _
  have hsym : ∀ {a b : Entry}, destFileName a ≠ destFileName b →
      destFileName b ≠ destFileName a := fun h => h.symm
  have hpw : (sortSongs (songEnum entries)).Pairwise
      (fun a b => destFileName a ≠ destFileName b) :=
    (hperm.pairwise_iff hsym).mpr hinj
  refine ⟨?_, ?_, ?_⟩
  · intro k v h
    exact copyFold_preserve _ fs0 k v h
  · intro e he hnone
    exact copyFold_new _ fs0 e hpw (hperm.mem_iff.mpr he) hnone
  · intro e he
    rcases hcase : fsLookup fs0 (destFileName e) with _ | v
    · rw [show copy_sorted_songs fs0 entries
          = (sortSongs (songEnum entries)).foldl copyOne fs0 from rfl,
        copyFold_new _ fs0 e hpw (hperm.mem_iff.mpr he) hcase]
      rfl
    · rw [show copy_sorted_songs fs0 entries
          = (sortSongs (songEnum entries)).foldl copyOne fs0 from rfl,
        copyFold_preserve _ fs0 _ v hcase]
      rfl

/-- C6 witness: with `b.mp3`'s (double-extension) destination pre-existing
with content `old`, the copy keeps `old` there and copies `a.mp3`'s content
to its own destination. -/
theorem copy_sorted_songs_spec_witness :
    ((songEnum demoDir).Pairwise (fun a b => destFileName a ≠ destFileName b)) ∧
      fsLookup (copy_sorted_songs demoFs demoDir) ("b.mp3..mp3".data) = some "old".data ∧
      fsLookup (copy_sorted_songs demoFs demoDir)
        (destFileName ⟨"a.mp3".data, 1, []⟩) = some ([] : Str) :=
  ⟨by decide,
    (copy_sorted_songs_spec demoFs demoDir (by decide)).1 _ _ (by decide),
    (copy_sorted_songs_spec demoFs demoDir (by decide)).2.1
      ⟨"a.mp3".data, 1, []⟩ (by decide) (by decide)⟩

/-- C7: the destination filename of `copy_sorted_songs` is
`<name>.<extension>` where the name still contains its suffix, so the
extension occurs twice: it equals `stem ++ suffix ++ "." ++ suffix` for the
stem of the source name. -/
theorem copy_dest_filename_doubles_ext (e : Entry) :
    ∃ stem, e.name = stem ++ pySuffix e.name ∧
      destFileName e = stem ++ (pySuffix e.name ++ '.' :: pySuffix e.name) := by
  rcases pySuffix_decomp e.name with ⟨stem, hs⟩
  refine ⟨stem, hs, ?_⟩
  have h1 : destFileName e = (stem ++ pySuffix e.name) ++ '.' :: pySuffix e.name :=
    congrArg (fun x => x ++ '.' :: pySuffix e.name) hs
  rw [h1, List.append_assoc]

/-- C8 counterexample: with a disallowed-character set containing the
hyphen, the sanitizer's output ` ` ↦ `-` contains a disallowed character,
and sanitizing again changes the result, refuting the claim's universal
quantification over disallowed sets. -/
theorem get_valid_filename_claim_cex :
    get_valid_filename [' '] ['-'] = ['-'] ∧ ('-' ∈ (['-'] : Str)) ∧
      get_valid_filename (get_valid_filename [' '] ['-']) ['-']
        ≠ get_valid_filename [' '] ['-'] := by
  decide

lemma gvf_cons (c : Char) (src rm : Str) :
    get_valid_filename (c :: src) rm =
      if c ∈ rm then get_valid_filename src rm
      else (if c = ' ' then '-' else c) :: get_valid_filename src rm := by
  by_cases h : c ∈ rm <;> simp [get_valid_filename, h]

/-- C8 amended: provided the hyphen is not itself disallowed (true for the
default set), the sanitizer's output contains no disallowed character and
no space, and sanitizing is idempotent. -/
theorem get_valid_filename_amended (src rm : Str) (hd : '-' ∉ rm) :
    (∀ c ∈ get_valid_filename src rm, c ∉ rm ∧ c ≠ ' ') ∧
      get_valid_filename (get_valid_filename src rm) rm
        = get_valid_filename src rm := by
  constructor
  · intro c hc
    rcases List.mem_map.mp hc with ⟨c0, hc0, hmap⟩
    rcases List.mem_filter.mp hc0 with ⟨-, hkeep⟩
    have hc0n : c0 ∉ rm := of_decide_eq_true hkeep
    by_cases hsp : c0 = ' '
    · subst hsp
      have : (if (' ' : Char) = ' ' then '-' else ' ') = '-' := by decide
      rw [this] at hmap
      subst hmap
      exact ⟨hd, by decide⟩
    · rw [if_neg hsp] at hmap
      subst hmap
      exact ⟨hc0n, hsp⟩
  · induction src with
    | nil => rfl
    | cons c src ih =>
      rw [gvf_cons]
      by_cases h1 : c ∈ rm
      · rw [if_pos h1]
        exact ih
      · rw [if_neg h1]
        by_cases h2 : c = ' '
        · subst h2
          have hsp : (if (' ' : Char) = ' ' then '-' else ' ') = '-' := by decide
          rw [hsp, gvf_cons, if_neg hd]
          have hhy : (if ('-' : Char) = ' ' then '-' else '-') = '-' := by decide
          rw [hhy, ih]
        · rw [if_neg h2, gvf_cons, if_neg h1, if_neg h2, ih]

/-- C8 amended witness: the amended sanitizer properties on `a b%c` with the
default disallowed set. -/
theorem get_valid_filename_amended_witness :
    ('-' ∉ defaultRm) ∧
      ((∀ c ∈ get_valid_filename "a b%c".data defaultRm, c ∉ defaultRm ∧ c ≠ ' ') ∧
        get_valid_filename (get_valid_filename "a b%c".data defaultRm) defaultRm
          = get_valid_filename "a b%c".data defaultRm) :=
  ⟨by decide, get_valid_filename_amended "a b%c".data defaultRm (by decide)⟩

/-- C9 counterexample: the enumerated file `A.mp3.mp3` has title `A`
(Python `replace` removes EVERY occurrence of the suffix), not the
name-minus-trailing-suffix `A.mp3` the claim describes. -/
theorem extinf_title_claim_cex :
    songEnum [⟨"A.mp3.mp3".data, 0, []⟩] = [⟨"A.mp3.mp3".data, 0, []⟩] ∧
      titleOf ⟨"A.mp3.mp3".data, 0, []⟩ = "A".data ∧
      specTitle "A.mp3.mp3".data = "A.mp3".data ∧
      titleOf ⟨"A.mp3.mp3".data, 0, []⟩ ≠ specTitle "A.mp3.mp3".data := by
  decide

/-- C9 amended: the display title is the name with every occurrence of the
suffix removed; when the name has the form `stem.ext` with no further dot
in the stem (and none in `ext`), this coincides with stripping the trailing
extension. -/
theorem extinf_title_amended (e : Entry) (stem r : Str)
    (hname : e.name = stem ++ '.' :: r) (hstem : stem ≠ []) (hrne : r ≠ [])
    (hdr : '.' ∉ r) (hds : '.' ∉ stem) :
    pySuffix e.name = '.' :: r ∧ titleOf e = stem := by
  have h := titleOf_clean stem r hstem hrne hdr hds
  constructor
  · rw [hname]
    exact pySuffix_append stem r hstem hrne hdr
  · simp only [titleOf] at h ⊢
    rw [hname]
    exact h.1

/-- C9 amended witness: the title of `a - b.mp3` is `a - b`. -/
theorem extinf_title_amended_witness :
    (("a - b.mp3".data : Str) = "a - b".data ++ '.' :: "mp3".data ∧
        ("a - b".data : Str) ≠ [] ∧ ("mp3".data : Str) ≠ [] ∧
        '.' ∉ ("mp3".data : Str) ∧ '.' ∉ ("a - b".data : Str)) ∧
      (pySuffix ("a - b.mp3".data) = '.' :: "mp3".data ∧
        titleOf ⟨"a - b.mp3".data, 0, []⟩ = "a - b".data) :=
  ⟨⟨by decide, by decide, by decide, by decide, by decide⟩,
    extinf_title_amended ⟨"a - b.mp3".data, 0, []⟩ "a - b".data "mp3".data
      (by decide) (by decide) (by decide) (by decide) (by decide)⟩

/-- C10: `check_urls` passes each matching `readlines` line to
`check_stream` raw: the lines concatenate back to the file content
(nothing is stripped), every checked string is one of those lines, and
every line other than the file's final one still carries its trailing
newline. -/
theorem check_urls_raw_lines (content : Str) :
    (pyReadlines content).flatten = content ∧
      ∀ v ∈ checkedStreams content,
        v ∈ pyReadlines content ∧ isUrlLine v = true ∧
          (v ∈ (pyReadlines content).dropLast → v.getLast? = some '\n') := by
  constructor
  · have h := readlinesAux_flatten content []
    simpa using h
  · intro v hv
    rcases List.mem_filter.mp hv with ⟨hmem, hurl⟩
    exact ⟨hmem, hurl, fun hdl => readlinesAux_dropLast_newline content [] v hdl⟩

/-- C10 witness: in a two-line file the first (URL) line is checked with
its trailing newline intact. -/
theorem check_urls_raw_lines_witness :
    ("http://x\n".data ∈ checkedStreams "http://x\nabc".data ∧
        "http://x\n".data ∈ (pyReadlines "http://x\nabc".data).dropLast) ∧
      ("http://x\n".data ∈ pyReadlines "http://x\nabc".data ∧
        ("http://x\n".data : Str).getLast? = some '\n') :=
  ⟨⟨by decide, by decide⟩,
    ((check_urls_raw_lines "http://x\nabc".data).2 _ (by decide)).1,
    (((check_urls_raw_lines "http://x\nabc".data).2 _ (by decide)).2.2 (by decide))⟩
